import Mathlib

/-!
Shallow embedding of `official/vision/beta/projects/centernet/ops/preprocess_ops.py`
(CenterNet label-encoding utilities) and proofs about it.

Conventions of the embedding:
* TensorFlow float tensors are modelled over `ℝ`; the scalar int32 values flowing
  through `draw_gaussian` (shape entries and the cast blob) are modelled as `ℤ`.
* IEEE NaN is modelled explicitly where it can arise: `_gaussian_penalty` returns
  `Option ℝ`, with `none` standing for the NaN produced by the `0/0` division when
  `sigma = radius / 3` vanishes (the numerator `-(x^2) - y^2` is `0` at the only
  grid point of a radius-0 kernel, so `0/0` is the only zero-denominator case).
* `tf.tensor_scatter_nd_update` raises on CPU when the updates list does not match
  the indices list or an index is out of range; this is modelled by returning
  `none` from `tensor_scatter_nd_update`.
* Tensor slicing `t[a:b]` follows Python semantics (negative bounds count from the
  end, then both bounds are clamped to `[0, len]`); `pySliceIdx` reproduces this.
* 1-D `tf.range(lo, hi)` is `rangeList lo hi`.
-/

/-- Integer interval `[lo, hi)` as a list, the model of `tf.range(lo, hi)`. -/
def rangeList (lo hi : ℤ) : List ℤ :=
  (List.range (hi - lo).toNat).map (fun (k : ℕ) => lo + (k : ℤ))

/-- Index list selected by the Python slice `[a:b]` of a 1-D axis of length `n`:
negative bounds are taken from the end, then clamped to `[0, n]`. -/
def pySliceIdx (n a b : ℤ) : List ℤ :=
  rangeList (max 0 (min (if a < 0 then a + n else a) n))
    (max 0 (min (if b < 0 then b + n else b) n))

/-- Embedding of `_smallest_positive_root(a, b, c)`: the code returns
`(-b + sqrt(b**2 - 4*a*c)) / 2.0` (the "+" branch, deliberately not divided by
`2a`; the corrected CornerNet formula is present only as a comment in the source). -/
noncomputable def _smallest_positive_root (a b c : ℝ) : ℝ :=
  (-b + Real.sqrt (b ^ 2 - 4 * a * c)) / 2

/-- Embedding of `gaussian_radius(det_size, min_overlap)`: three coefficient
triples, one quadratic root each, combined with `tf.reduce_min`. -/
noncomputable def gaussian_radius (det_size : ℝ × ℝ) (min_overlap : ℝ) : ℝ :=
  let height := det_size.1
  let width := det_size.2
  let r1 := _smallest_positive_root 1 (-(height + width))
    (width * height * (1 - min_overlap) / (1 + min_overlap))
  let r2 := _smallest_positive_root 4 (-2 * (height + width))
    ((1 - min_overlap) * width * height)
  let r3 := _smallest_positive_root (4 * min_overlap) (2 * min_overlap * (height + width))
    ((min_overlap - 1) * width * height)
  min r1 (min r2 r3)

/-- Batched `gaussian_radius`: the TensorFlow ops act elementwise, broadcasting
over the leading dimensions of `det_size`, modelled by an index type `ι`. -/
noncomputable def gaussian_radius_batched (ι : Type) (det_size : ι → ℝ × ℝ)
    (min_overlap : ℝ) : ι → ℝ :=
  fun i =>
    let height := (det_size i).1
    let width := (det_size i).2
    let r1 := _smallest_positive_root 1 (-(height + width))
      (width * height * (1 - min_overlap) / (1 + min_overlap))
    let r2 := _smallest_positive_root 4 (-2 * (height + width))
      ((1 - min_overlap) * width * height)
    let r3 := _smallest_positive_root (4 * min_overlap) (2 * min_overlap * (height + width))
      ((min_overlap - 1) * width * height)
    min r1 (min r2 r3)

/-- Value of the `_gaussian_penalty` kernel at grid position `(i, j)` (row, column)
of the `(2*radius+1) x (2*radius+1)` grid, when the division is well defined:
`exp((-(x^2) - y^2) / (2*sigma^2))` with `x = i - radius`, `y = j - radius`,
`sigma = radius / 3`. -/
noncomputable def gaussianKernelValue (radius i j : ℤ) : ℝ :=
  Real.exp ((-(((i : ℝ) - (radius : ℝ)) ^ 2) - ((j : ℝ) - (radius : ℝ)) ^ 2) /
    (2 * ((radius : ℝ) / 3) ^ 2))

/-- Entry `(i, j)` of `_gaussian_penalty(radius)`. The code computes
`exp((-(x**2) - y**2) / (2 * sigma**2))` with `sigma = radius / 3` (true division)
and has no special case for `sigma = 0`: there the exponent is the IEEE division
`0/0`, i.e. NaN, which `exp` propagates — modelled by `none`. -/
noncomputable def _gaussian_penalty (radius i j : ℤ) : Option ℝ :=
  if 2 * ((radius : ℝ) / 3) ^ 2 = 0 then none
  else some (gaussianKernelValue radius i j)

/-- Embedding of `cartesian_product(*tensors)`: `tf.meshgrid(..., indexing='ij')`
stacked, transposed so the coordinate axis is last, and reshaped row-major to
`(-1, len(tensors))` — i.e. the full grid of combinations enumerated in
lexicographic order with the last sequence varying fastest. -/
def cartesian_product : List (List ℤ) → List (List ℤ)
  | [] => [[]]
  | xs :: rest => xs.flatMap (fun a => (cartesian_product rest).map (fun row => a :: row))

/-- Row `k` of the enumeration the claim describes, written from the claim's words
(not from the code): rows are in lexicographic product order with the last sequence
varying fastest, so the first sequence has the largest stride — the product of the
lengths of the later sequences — and column `j` of each row is drawn from input
sequence `j`. Row `k` therefore decodes `k` in mixed radix: entry `k / stride`
of the first sequence followed by the decoding of `k % stride` over the rest. -/
def lexRowAt : List (List ℤ) → ℕ → List ℤ
  | [], _ => []
  | xs :: rest, k =>
      xs.getD (k / (rest.map List.length).prod) 0 ::
        lexRowAt rest (k % (rest.map List.length).prod)

/-- Bounds check of `tf.tensor_scatter_nd_update` for one index of a rank-3 target:
the index must be a full `[row, col, channel]` triple inside the shape. -/
def validIdx (H W C : ℤ) : List ℤ → Bool
  | [a, b, c] => decide (0 ≤ a) && decide (a < H) && decide (0 ≤ b) && decide (b < W)
      && decide (0 ≤ c) && decide (c < C)
  | _ => false

/-- Sequential application of scatter writes (last write wins), starting from
`base`. A cell value of `none` stands for NaN. -/
def applyScatter (l : List (List ℤ × Option ℝ)) (base : ℤ × ℤ × ℤ → Option ℝ) :
    ℤ × ℤ × ℤ → Option ℝ :=
  l.foldl (fun acc p => fun q => if p.1 = [q.1, q.2.1, q.2.2] then p.2 else acc q) base

/-- Embedding of `tf.tensor_scatter_nd_update(tf.zeros((H,W,C)), indices, updates)`:
on CPU the op raises when `updates` does not have one value per index row or an
index is out of range (modelled by `none`); otherwise all writes are applied to the
zero buffer. -/
def tensor_scatter_nd_update (H W C : ℤ) (indices : List (List ℤ))
    (updates : List (Option ℝ)) : Option (ℤ × ℤ × ℤ → Option ℝ) :=
  if indices.length = updates.length ∧ ∀ l ∈ indices, validIdx H W C l = true then
    some (applyScatter (indices.zip updates) (fun _ => some 0))
  else none

/-- Scatter index list built by `draw_gaussian`:
`cartesian_product(tf.range(y - top, y + bottom), tf.range(x - left, x + right), [obj_class])`
with the clip margins `left/right/top/bottom` of the source. -/
def draw_indices (cls x y r H W : ℤ) : List (List ℤ) :=
  let left := min x r
  let right := min (W - x) (r + 1)
  let top := min y r
  let bottom := min (H - y) (r + 1)
  cartesian_product [rangeList (y - top) (y + bottom), rangeList (x - left) (x + right), [cls]]

/-- Scatter value list built by `draw_gaussian`: the kernel
`_gaussian_penalty(radius)` sliced to
`[radius-top : radius+bottom, radius-left : radius+right]`, flattened row-major,
multiplied by `scaling_factor`. -/
noncomputable def draw_values (x y r H W : ℤ) (scaling_factor : ℝ) : List (Option ℝ) :=
  let left := min x r
  let right := min (W - x) (r + 1)
  let top := min y r
  let bottom := min (H - y) (r + 1)
  (((pySliceIdx (2 * r + 1) (r - top) (r + bottom)).flatMap fun i =>
      (pySliceIdx (2 * r + 1) (r - left) (r + right)).map fun j =>
        _gaussian_penalty r i j).map (Option.map (fun v => v * scaling_factor)))

/-- Embedding of `draw_gaussian(hm_shape, blob, dtype, scaling_factor)`:
`hm_shape = (H, W, C)`, `blob = (obj_class, x, y, radius)` after the int32 cast;
the clipped kernel values are scattered into a zero heatmap. -/
noncomputable def draw_gaussian (hm_shape : ℤ × ℤ × ℤ) (blob : ℤ × ℤ × ℤ × ℤ)
    (scaling_factor : ℝ) : Option (ℤ × ℤ × ℤ → Option ℝ) :=
  tensor_scatter_nd_update hm_shape.1 hm_shape.2.1 hm_shape.2.2
    (draw_indices blob.1 blob.2.1 blob.2.2.1 blob.2.2.2 hm_shape.1 hm_shape.2.1)
    (draw_values blob.2.1 blob.2.2.1 blob.2.2.2 hm_shape.1 hm_shape.2.1 scaling_factor)

/-- Reads one cell of a rasterizer result (when rasterization did not raise). -/
def cellAt (result : Option (ℤ × ℤ × ℤ → Option ℝ)) (q : ℤ × ℤ × ℤ) : Option (Option ℝ) :=
  result.map fun hm => hm q

/-- Embedding of `get_image_shape(image)`, acting on the shape vector
`shape = tf.shape(image)`: rank 4 returns `(shape[1], shape[2])`, every other rank
takes the else-branch returning `(shape[0], shape[1])`; a missing entry (rank `< 2`
in the else-branch) is an out-of-range tensor index, modelled by `none`. -/
def get_image_shape (shape : List ℤ) : Option (ℤ × ℤ) :=
  if shape.length = 4 then
    (shape.get? 1).bind fun height => (shape.get? 2).map fun width => (height, width)
  else
    (shape.get? 0).bind fun height => (shape.get? 1).map fun width => (height, width)

/-- Embedding of `pad_max_instances(value, instances, pad_value, pad_axis)` along the
resolved pad axis: `value` is the list of slices along that axis. The code takes
`take = min(instances, dim1)` and calls `tf.split(value, [take, -1])`; a negative
`take` is an invalid split size (sizes must be non-negative with at most one `-1`),
which raises — modelled by `none`. Otherwise the first `take` slices are kept and
`max(instances - dim1, 0)` slices of `pad_value` are appended. -/
def pad_max_instances {α : Type} (value : List α) (instances : ℤ) (pad_value : α) :
    Option (List α) :=
  let dim1 : ℤ := value.length
  let tk := min instances dim1
  if tk < 0 then none
  else some (value.take tk.toNat ++ List.replicate (max (instances - dim1) 0).toNat pad_value)

/-! ### Helper lemmas -/

theorem length_rangeList (lo hi : ℤ) : (rangeList lo hi).length = (hi - lo).toNat := by
  rw [rangeList, List.length_map, List.length_range]

theorem mem_rangeList {a lo hi : ℤ} : a ∈ rangeList lo hi ↔ lo ≤ a ∧ a < hi := by
  simp only [rangeList, List.mem_map, List.mem_range]
  constructor
  · rintro ⟨k, hk, rfl⟩
    omega
  · rintro ⟨h1, h2⟩
    exact ⟨(a - lo).toNat, by omega, by omega⟩

theorem rangeList_eq_nil {lo hi : ℤ} (h : hi ≤ lo) : rangeList lo hi = [] := by
  have : (hi - lo).toNat = 0 := by omega
  simp [rangeList, this]

theorem flatMap_pure {α β : Type} (l : List α) (f : α → List β) :
    (l.flatMap fun a => [f a]) = l.map f := by
  induction l with
  | nil => rfl
  | cons a t ih => simp [List.flatMap_cons, ih]

theorem flatMap_nil_fun {α β : Type} (l : List α) :
    (l.flatMap fun _ => ([] : List β)) = [] := by
  induction l with
  | nil => rfl
  | cons a t ih => simp [List.flatMap_cons, ih]

theorem length_flatMap_const {α β : Type} (l : List α) (f : α → List β) (m : ℕ)
    (h : ∀ a ∈ l, (f a).length = m) : (l.flatMap f).length = l.length * m := by
  induction l with
  | nil => simp
  | cons a t ih =>
      simp only [List.flatMap_cons, List.length_append, List.length_cons]
      rw [h a (by simp), ih (fun b hb => h b (by simp [hb]))]
      ring

theorem cartesian_product_cons (xs : List ℤ) (rest : List (List ℤ)) :
    cartesian_product (xs :: rest) =
      xs.flatMap fun a => (cartesian_product rest).map fun row => a :: row := by
  simp [cartesian_product]

theorem cartesian_product_two (xs ys : List ℤ) :
    cartesian_product [xs, ys] = xs.flatMap fun a => ys.map fun b => [a, b] := by
  rw [cartesian_product_cons, cartesian_product_cons]
  rw [show cartesian_product [] = [[]] from rfl]
  rw [show (ys.flatMap fun a => ([[]] : List (List ℤ)).map fun row => a :: row) =
    ys.flatMap fun a => [[a]] from rfl]
  rw [flatMap_pure ys fun b => [b]]
  simp only [List.map_map]
  rfl

theorem cartesian_product_three (xs ys : List ℤ) (c : ℤ) :
    cartesian_product [xs, ys, [c]] = xs.flatMap fun a => ys.map fun b => [a, b, c] := by
  rw [cartesian_product_cons]
  rw [show cartesian_product [ys, [c]] = ys.flatMap fun b => [c].map fun z => [b, z] from
    cartesian_product_two ys [c]]
  rw [show (ys.flatMap fun b => [c].map fun z => [b, z]) = ys.flatMap fun b => [[b, c]] from rfl]
  rw [flatMap_pure ys fun b => [b, c]]
  simp only [List.map_map]
  rfl

/-! ### Claim C3: the radius-0 kernel value -/

/-- C3: the claim states that the kernel generator special-cases `radius = 0` and
returns exactly `1.0`. The code does not: `sigma = 0/3 = 0`, the exponent is the
IEEE division `0/0` (NaN) and `exp(NaN)` is NaN, modelled by `none`. This theorem
evaluates the code at the failing input `radius = 0` (single grid cell `(0,0)`). -/
theorem gaussian_penalty_radius_zero_nan : _gaussian_penalty 0 0 0 = none := by
  rw [_gaussian_penalty, if_pos (by norm_num)]

/-! ### Claim C2: the three roots of gaussian_radius -/

/-- C2: `gaussian_radius` is the minimum of the three "+"-branch roots
`(-b + sqrt(b^2 - 4ac)) / 2` at the coefficient triples
`(1, -(h+w), w*h*(1-m)/(1+m))`, `(4, -2(h+w), (1-m)*w*h)` and
`(4m, 2m(h+w), (m-1)*w*h)`, and the batched version applies this formula
elementwise over the leading batch dimensions. -/
theorem gaussian_radius_three_roots (h w m : ℝ) (ι : Type) (ds : ι → ℝ × ℝ) (i : ι) :
    gaussian_radius (h, w) m =
      min ((-(-(h + w)) + Real.sqrt ((-(h + w)) ^ 2 - 4 * 1 * (w * h * (1 - m) / (1 + m)))) / 2)
        (min ((-(-2 * (h + w)) +
            Real.sqrt ((-2 * (h + w)) ^ 2 - 4 * 4 * ((1 - m) * w * h))) / 2)
          ((-(2 * m * (h + w)) +
            Real.sqrt ((2 * m * (h + w)) ^ 2 - 4 * (4 * m) * ((m - 1) * w * h))) / 2)) ∧
    gaussian_radius_batched ι ds m i = gaussian_radius (ds i) m :=
  ⟨rfl, rfl⟩

/-! ### Claim C8: get_image_shape on the possible ranks -/

/-- C8 (amended): rank 4 returns `(shape[1], shape[2])` and rank 3 returns
`(shape[0], shape[1])`, but no `InvalidShape` error exists for other ranks: any
rank other than 4 takes the unbatched else-branch, so a rank-2 shape silently
yields `(shape[0], shape[1])`. -/
theorem get_image_shape_ranks (a b c d : ℤ) :
    get_image_shape [a, b, c, d] = some (b, c) ∧
    get_image_shape [a, b, c] = some (a, b) ∧
    get_image_shape [a, b] = some (a, b) :=
  ⟨rfl, rfl, rfl⟩

/-- C8 counterexample: a rank-2 image shape does not raise; the code silently
returns `(shape[0], shape[1])`, contradicting the claimed `InvalidShape` error. -/
theorem get_image_shape_rank_two_silent : get_image_shape [7, 9] = some (7, 9) := rfl

/-! ### Claim C9: pad_max_instances -/

/-- C9 (amended): for `instances >= 0` the output is the truncation of the axis to
at most `instances` entries followed by `pad_value` padding, with length exactly
`instances` (so `instances = 0` drops everything); but for `instances < 0` the
negative split size passed to `tf.split` raises instead of degrading. -/
theorem pad_max_instances_spec {α : Type} (value : List α) (instances : ℤ) (pv : α) :
    (0 ≤ instances →
      ∃ l, pad_max_instances value instances pv = some l ∧
        (l.length : ℤ) = instances ∧
        l = value.take (min instances (value.length : ℤ)).toNat ++
          List.replicate (instances - min instances (value.length : ℤ)).toNat pv ∧
        (instances = 0 → l = [])) ∧
    (instances < 0 → pad_max_instances value instances pv = none) := by
  constructor
  · intro hi
    refine ⟨value.take (min instances (value.length : ℤ)).toNat ++
      List.replicate (max (instances - (value.length : ℤ)) 0).toNat pv, ?_, ?_, ?_, ?_⟩
    · simp only [pad_max_instances]
      rw [if_neg (by omega)]
    · rw [List.length_append, List.length_take, List.length_replicate]
      push_cast
      omega
    · congr 2
      omega
    · intro h0
      subst h0
      have e1 : (min (0 : ℤ) (value.length : ℤ)).toNat = 0 := by omega
      have e2 : (max ((0 : ℤ) - (value.length : ℤ)) 0).toNat = 0 := by omega
      rw [e1, e2]
      simp
  · intro hneg
    simp only [pad_max_instances]
    rw [if_pos (by omega)]

/-- C9 counterexample: with `instances = -1` the split size list handed to
`tf.split` is `[-1, -1]`, which is invalid and raises; the code does not degrade
to "drop all, pad to zero" as the claim states for `instances <= 0`. -/
theorem pad_max_instances_negative_raises :
    pad_max_instances ([5] : List ℤ) (-1) 0 = none := by decide

/-- C9 witness at `value = [1,2,3]`, `instances = 5`, `pad_value = 0`. -/
theorem pad_max_instances_spec_witness :
    (0 : ℤ) ≤ 5 ∧
    ∃ l, pad_max_instances ([1, 2, 3] : List ℤ) 5 0 = some l ∧
      (l.length : ℤ) = 5 ∧
      l = ([1, 2, 3] : List ℤ).take (min 5 ((([1, 2, 3] : List ℤ)).length : ℤ)).toNat ++
        List.replicate ((5 : ℤ) - min 5 ((([1, 2, 3] : List ℤ)).length : ℤ)).toNat 0 ∧
      ((5 : ℤ) = 0 → l = []) :=
  ⟨by norm_num, (pad_max_instances_spec ([1, 2, 3] : List ℤ) 5 0).1 (by norm_num)⟩

/-! ### Claim C10: gaussian_radius at min_overlap = 1 -/

/-- C10: at `min_overlap = 1` the case-3 constant coefficient vanishes, so the
case-3 root is exactly `0`, while the case-1 and case-2 roots are strictly
positive; the minimum, and hence `gaussian_radius`, is exactly `0`. -/
theorem gaussian_radius_overlap_one (h w : ℝ) (hh : 0 < h) (hw : 0 < w) :
    gaussian_radius (h, w) 1 = 0 ∧
    0 < _smallest_positive_root 1 (-(h + w)) (w * h * (1 - 1) / (1 + 1)) ∧
    0 < _smallest_positive_root 4 (-2 * (h + w)) ((1 - 1) * w * h) ∧
    _smallest_positive_root (4 * 1) (2 * 1 * (h + w)) ((1 - 1) * w * h) = 0 := by
  have hhw : (0:ℝ) < h + w := by linarith
  have e1 : (-(h + w)) ^ 2 - 4 * 1 * (w * h * (1 - 1) / (1 + 1)) = (h + w) ^ 2 := by ring
  have e2 : (-2 * (h + w)) ^ 2 - 4 * 4 * ((1 - 1) * w * h) = (2 * (h + w)) ^ 2 := by ring
  have e3 : (2 * 1 * (h + w)) ^ 2 - 4 * (4 * 1) * ((1 - 1) * w * h) = (2 * (h + w)) ^ 2 := by
    ring
  have r1 : _smallest_positive_root 1 (-(h + w)) (w * h * (1 - 1) / (1 + 1)) = h + w := by
    rw [_smallest_positive_root, e1, Real.sqrt_sq hhw.le]
    ring
  have r2 : _smallest_positive_root 4 (-2 * (h + w)) ((1 - 1) * w * h) = 2 * (h + w) := by
    rw [_smallest_positive_root, e2, Real.sqrt_sq (by linarith)]
    ring
  have r3 : _smallest_positive_root (4 * 1) (2 * 1 * (h + w)) ((1 - 1) * w * h) = 0 := by
    rw [_smallest_positive_root, e3, Real.sqrt_sq (by linarith)]
    ring
  refine ⟨?_, by rw [r1]; linarith, by rw [r2]; linarith, r3⟩
  have hmin : gaussian_radius (h, w) 1 =
      min (_smallest_positive_root 1 (-(h + w)) (w * h * (1 - 1) / (1 + 1)))
        (min (_smallest_positive_root 4 (-2 * (h + w)) ((1 - 1) * w * h))
          (_smallest_positive_root (4 * 1) (2 * 1 * (h + w)) ((1 - 1) * w * h))) := rfl
  rw [hmin, r1, r2, r3]
  rw [min_eq_right (by linarith : (0:ℝ) ≤ 2 * (h + w))]
  exact min_eq_right (by linarith)

/-- C10 witness at `det_size = (10, 12)`. -/
theorem gaussian_radius_overlap_one_witness :
    (0 : ℝ) < 10 ∧ (0 : ℝ) < 12 ∧
    (gaussian_radius (10, 12) 1 = 0 ∧
      0 < _smallest_positive_root 1 (-(10 + 12)) (12 * 10 * (1 - 1) / (1 + 1)) ∧
      0 < _smallest_positive_root 4 (-2 * (10 + 12)) ((1 - 1) * 12 * 10) ∧
      _smallest_positive_root (4 * 1) (2 * 1 * (10 + 12)) ((1 - 1) * 12 * 10) = 0) :=
  ⟨by norm_num, by norm_num, gaussian_radius_overlap_one 10 12 (by norm_num) (by norm_num)⟩

/-! ### Claim C6: non-negative discriminants and radius -/

/-- C6: for positive box sizes and `0 < min_overlap <= 1`, all three discriminants
`b^2 - 4ac` are non-negative (so no square root of a negative number, hence no NaN)
and the resulting radius is non-negative. -/
theorem gaussian_radius_nonneg (h w m : ℝ) (hh : 0 < h) (hw : 0 < w) (hm0 : 0 < m)
    (hm1 : m ≤ 1) :
    0 ≤ (-(h + w)) ^ 2 - 4 * 1 * (w * h * (1 - m) / (1 + m)) ∧
    0 ≤ (-2 * (h + w)) ^ 2 - 4 * 4 * ((1 - m) * w * h) ∧
    0 ≤ (2 * m * (h + w)) ^ 2 - 4 * (4 * m) * ((m - 1) * w * h) ∧
    0 ≤ gaussian_radius (h, w) m := by
  have h1p : (0:ℝ) < 1 + m := by linarith
  have hwh : (0:ℝ) < w * h := mul_pos hw hh
  have hD1 : 0 ≤ (-(h + w)) ^ 2 - 4 * 1 * (w * h * (1 - m) / (1 + m)) := by
    have key : w * h * (1 - m) / (1 + m) ≤ w * h := by
      rw [div_le_iff h1p]
      nlinarith [mul_pos hm0 hwh]
    nlinarith [sq_nonneg (h - w)]
  have hD2 : 0 ≤ (-2 * (h + w)) ^ 2 - 4 * 4 * ((1 - m) * w * h) := by
    nlinarith [sq_nonneg (h - w), mul_pos hm0 hwh]
  have hD3 : 0 ≤ (2 * m * (h + w)) ^ 2 - 4 * (4 * m) * ((m - 1) * w * h) := by
    nlinarith [sq_nonneg (2 * m * (h + w)),
      mul_nonneg (mul_nonneg hm0.le (by linarith : (0:ℝ) ≤ 1 - m)) hwh.le]
  refine ⟨hD1, hD2, hD3, ?_⟩
  have hmin : gaussian_radius (h, w) m =
      min (_smallest_positive_root 1 (-(h + w)) (w * h * (1 - m) / (1 + m)))
        (min (_smallest_positive_root 4 (-2 * (h + w)) ((1 - m) * w * h))
          (_smallest_positive_root (4 * m) (2 * m * (h + w)) ((m - 1) * w * h))) := rfl
  rw [hmin]
  refine le_min ?_ (le_min ?_ ?_)
  · rw [_smallest_positive_root]
    have hs := Real.sqrt_nonneg ((-(h + w)) ^ 2 - 4 * 1 * (w * h * (1 - m) / (1 + m)))
    apply div_nonneg _ (by norm_num)
    linarith
  · rw [_smallest_positive_root]
    have hs := Real.sqrt_nonneg ((-2 * (h + w)) ^ 2 - 4 * 4 * ((1 - m) * w * h))
    apply div_nonneg _ (by norm_num)
    linarith
  · rw [_smallest_positive_root]
    have hx : (0:ℝ) ≤ 2 * m * (h + w) :=
      mul_nonneg (by linarith : (0:ℝ) ≤ 2 * m) (by linarith)
    have hsq : Real.sqrt ((2 * m * (h + w)) ^ 2) ≤
        Real.sqrt ((2 * m * (h + w)) ^ 2 - 4 * (4 * m) * ((m - 1) * w * h)) := by
      apply Real.sqrt_le_sqrt
      nlinarith [mul_nonneg (mul_nonneg hm0.le (by linarith : (0:ℝ) ≤ 1 - m)) hwh.le]
    rw [Real.sqrt_sq hx] at hsq
    apply div_nonneg _ (by norm_num)
    linarith

/-- C6 witness at `det_size = (10, 12)`, `min_overlap = 0.7`. -/
theorem gaussian_radius_nonneg_witness :
    ((0:ℝ) < 10 ∧ (0:ℝ) < 12 ∧ (0:ℝ) < 0.7 ∧ (0.7:ℝ) ≤ 1) ∧
    (0 ≤ (-((10:ℝ) + 12)) ^ 2 - 4 * 1 * (12 * 10 * (1 - 0.7) / (1 + 0.7)) ∧
      0 ≤ (-2 * ((10:ℝ) + 12)) ^ 2 - 4 * 4 * ((1 - 0.7) * 12 * 10) ∧
      0 ≤ (2 * (0.7:ℝ) * (10 + 12)) ^ 2 - 4 * (4 * 0.7) * ((0.7 - 1) * 12 * 10) ∧
      0 ≤ gaussian_radius (10, 12) 0.7) :=
  ⟨⟨by norm_num, by norm_num, by norm_num, by norm_num⟩,
    gaussian_radius_nonneg 10 12 0.7 (by norm_num) (by norm_num) (by norm_num) (by norm_num)⟩

/-! ### Claim C7: kernel symmetry and peak -/

theorem gaussianKernelValue_symm (r i j : ℤ) :
    gaussianKernelValue r i j = gaussianKernelValue r (2 * r - i) (2 * r - j) := by
  rw [gaussianKernelValue, gaussianKernelValue]
  congr 1
  push_cast
  ring

/-- C7: the kernel is invariant under 180-degree rotation
(`kernel[i,j] = kernel[2r-i, 2r-j]`) for every radius, and the centre value
`kernel[r,r]` is exactly `1.0` for every nonzero radius; at `radius = 0` the
centre is NaN (the C3 code bug), not `1.0` as claimed. -/
theorem gaussian_penalty_symm_peak :
    (∀ radius i j : ℤ,
      _gaussian_penalty radius i j =
        _gaussian_penalty radius (2 * radius - i) (2 * radius - j)) ∧
    (∀ radius : ℤ, radius ≠ 0 → _gaussian_penalty radius radius radius = some 1) ∧
    _gaussian_penalty 0 0 0 = none := by
  refine ⟨?_, ?_, ?_⟩
  · intro r i j
    rw [_gaussian_penalty, _gaussian_penalty, gaussianKernelValue_symm]
  · intro r hr
    have hrr : ((r : ℝ)) ≠ 0 := Int.cast_ne_zero.mpr hr
    rw [_gaussian_penalty,
      if_neg (mul_ne_zero two_ne_zero (pow_ne_zero 2 (div_ne_zero hrr (by norm_num))))]
    have hone : gaussianKernelValue r r r = 1 := by
      rw [gaussianKernelValue]
      simp
    rw [hone]
  · rw [_gaussian_penalty, if_pos (by norm_num)]

/-- C7 witness at `radius = 1` (symmetry instance and unit peak). -/
theorem gaussian_penalty_symm_peak_witness :
    _gaussian_penalty 1 0 0 = _gaussian_penalty 1 (2 * 1 - 0) (2 * 1 - 0) ∧
    ((1 : ℤ) ≠ 0 ∧ _gaussian_penalty 1 1 1 = some 1) :=
  ⟨gaussian_penalty_symm_peak.1 1 0 0, by norm_num,
    gaussian_penalty_symm_peak.2.1 1 (by norm_num)⟩

/-! ### Claim C5: cartesian_product enumeration order -/

theorem flatMap_uniform_get {α β : Type} (f : α → List β) (m : ℕ) :
    ∀ (xs : List α) (i j : ℕ) (a : α), (∀ x ∈ xs, (f x).length = m) →
      xs.get? i = some a → j < m →
      (xs.flatMap f).get? (i * m + j) = (f a).get? j := by
  intro xs
  induction xs with
  | nil =>
      intro i j a _ hget _
      simp at hget
  | cons x t ih =>
      intro i j a hlen hget hj
      cases i with
      | zero =>
          rw [List.get?_cons_zero] at hget
          obtain rfl : x = a := by simpa using hget
          simp only [List.flatMap_cons, Nat.zero_mul, Nat.zero_add]
          exact List.get?_append (by rw [hlen x (by simp)]; exact hj)
      | succ i2 =>
          rw [List.get?_cons_succ] at hget
          have hidx : (i2 + 1) * m + j = i2 * m + j + m := by ring
          simp only [List.flatMap_cons]
          rw [hidx, List.get?_append_right (by rw [hlen x (by simp)]; exact Nat.le_add_left m _)]
          rw [hlen x (by simp), Nat.add_sub_cancel]
          exact ih i2 j a (fun b hb => hlen b (by simp [hb])) hget hj

theorem lexRowAt_length : ∀ (ls : List (List ℤ)) (k : ℕ),
    (lexRowAt ls k).length = ls.length := by
  intro ls
  induction ls with
  | nil =>
      intro k
      rfl
  | cons xs rest ih =>
      intro k
      simp only [lexRowAt, List.length_cons, ih]

theorem cartesian_product_length : ∀ ls : List (List ℤ),
    (cartesian_product ls).length = (ls.map List.length).prod := by
  intro ls
  induction ls with
  | nil => rfl
  | cons xs rest ih =>
      rw [cartesian_product_cons,
        length_flatMap_const _ _ (cartesian_product rest).length
          (fun a _ => List.length_map _ _), ih]
      simp [List.prod_cons]

theorem cartesian_product_get : ∀ (ls : List (List ℤ)) (k : ℕ),
    k < (ls.map List.length).prod →
    (cartesian_product ls).get? k = some (lexRowAt ls k) := by
  intro ls
  induction ls with
  | nil =>
      intro k hk
      have hk0 : k = 0 := by
        simp only [List.map_nil, List.prod_nil] at hk
        omega
      subst hk0
      rfl
  | cons xs rest ih =>
      intro k hk
      rw [List.map_cons, List.prod_cons] at hk
      have hm : 0 < (rest.map List.length).prod := by
        rcases Nat.eq_zero_or_pos (rest.map List.length).prod with h0 | h
        · rw [h0, Nat.mul_zero] at hk
          omega
        · exact h
      have hdiv : k / (rest.map List.length).prod < xs.length :=
        (Nat.div_lt_iff_lt_mul hm).mpr hk
      have hmod : k % (rest.map List.length).prod < (rest.map List.length).prod :=
        Nat.mod_lt _ hm
      have hk2 : k = (k / (rest.map List.length).prod) * (cartesian_product rest).length +
          k % (rest.map List.length).prod := by
        rw [cartesian_product_length]
        calc k = (rest.map List.length).prod * (k / (rest.map List.length).prod) +
            k % (rest.map List.length).prod := (Nat.div_add_mod k _).symm
          _ = (k / (rest.map List.length).prod) * (rest.map List.length).prod +
            k % (rest.map List.length).prod := by ring
      rw [cartesian_product_cons]
      conv_lhs => rw [hk2]
      rw [flatMap_uniform_get (fun a => (cartesian_product rest).map fun row => a :: row)
        (cartesian_product rest).length xs (k / (rest.map List.length).prod)
        (k % (rest.map List.length).prod)
        (xs.get ⟨k / (rest.map List.length).prod, hdiv⟩)
        (fun a _ => List.length_map _ _) (List.get?_eq_get hdiv)
        (by rw [cartesian_product_length]; exact hmod)]
      rw [List.get?_map, ih _ hmod]
      simp only [Option.map_some', Option.some.injEq, lexRowAt, List.cons.injEq]
      refine ⟨?_, trivial⟩
      rw [List.getD_eq_get?, List.get?_eq_get hdiv]
      rfl

/-- C5: for every ordered list of 1D index sequences, `cartesian_product` has one
row per element of the Cartesian product (`∏ lengths` rows), each row has one
column per input sequence, and row `k` is exactly the mixed-radix decoding of
`k` with the last sequence varying fastest and columns in input-sequence order
(`lexRowAt`); in particular the product of `[0,1]` and `[0,1,2]` is exactly the
six claimed rows in that order. -/
theorem cartesian_product_spec (ls : List (List ℤ)) (k : ℕ)
    (hk : k < (ls.map List.length).prod) :
    (cartesian_product ls).length = (ls.map List.length).prod ∧
    (cartesian_product ls).get? k = some (lexRowAt ls k) ∧
    (lexRowAt ls k).length = ls.length ∧
    cartesian_product [[0, 1], [0, 1, 2]] =
      [[0, 0], [0, 1], [0, 2], [1, 0], [1, 1], [1, 2]] :=
  ⟨cartesian_product_length ls, cartesian_product_get ls k hk, lexRowAt_length ls k,
    by decide⟩

/-- C5 witness: row `5` of the 3-by-2 arity-2 instance, via the n-ary theorem at
`ls = [[0,1],[0,1,2]]`, `k = 5`. -/
theorem cartesian_product_spec_witness :
    (cartesian_product [[0, 1], [0, 1, 2]]).get? 5 = some [1, 2] := by
  have h := (cartesian_product_spec [[0, 1], [0, 1, 2]] 5 (by decide)).2.1
  rw [h]
  decide

/-! ### Scatter machinery for the rasterizer claims -/

theorem applyScatter_cons (p : List ℤ × Option ℝ) (l : List (List ℤ × Option ℝ))
    (base : ℤ × ℤ × ℤ → Option ℝ) :
    applyScatter (p :: l) base =
      applyScatter l (fun q => if p.1 = [q.1, q.2.1, q.2.2] then p.2 else base q) := rfl

theorem applyScatter_of_not_mem (q : ℤ × ℤ × ℤ) :
    ∀ (l : List (List ℤ × Option ℝ)), (∀ p ∈ l, p.1 ≠ [q.1, q.2.1, q.2.2]) →
      ∀ base, applyScatter l base q = base q := by
  intro l
  induction l with
  | nil =>
      intro _ base
      rfl
  | cons p t ih =>
      intro h base
      rw [applyScatter_cons]
      rw [ih (fun p2 hp2 => h p2 (List.mem_cons_of_mem _ hp2)) _]
      exact if_neg (h p (List.mem_cons_self _ _))

theorem applyScatter_of_unique (q : ℤ × ℤ × ℤ) (v : Option ℝ) :
    ∀ (l : List (List ℤ × Option ℝ)), ([q.1, q.2.1, q.2.2], v) ∈ l →
      (∀ p ∈ l, p.1 = [q.1, q.2.1, q.2.2] → p = ([q.1, q.2.1, q.2.2], v)) →
      ∀ base, applyScatter l base q = v := by
  intro l
  induction l with
  | nil =>
      intro hmem _ _
      exact absurd hmem (List.not_mem_nil _)
  | cons p t ih =>
      intro hmem huniq base
      rw [applyScatter_cons]
      by_cases hmt : ([q.1, q.2.1, q.2.2], v) ∈ t
      · exact ih hmt (fun p2 hp2 => huniq p2 (List.mem_cons_of_mem _ hp2)) _
      · have hp : p = ([q.1, q.2.1, q.2.2], v) := by
          rcases List.mem_cons.mp hmem with h1 | h1
          · exact h1.symm
          · exact absurd h1 hmt
        have hnone : ∀ p2 ∈ t, p2.1 ≠ [q.1, q.2.1, q.2.2] := by
          intro p2 hp2 hc
          apply hmt
          rw [← huniq p2 (List.mem_cons_of_mem _ hp2) hc]
          exact hp2
        rw [applyScatter_of_not_mem q t hnone]
        rw [hp]
        exact if_pos rfl

theorem zip_flatMap_uniform {α β γ δ : Type} (f : α → List β) (g : γ → List δ)
    (hlen : ∀ a c, (f a).length = (g c).length) :
    ∀ (xs : List α) (cs : List γ), xs.length = cs.length →
      (xs.flatMap f).zip (cs.flatMap g) =
        (xs.zip cs).flatMap fun p => (f p.1).zip (g p.2) := by
  intro xs
  induction xs with
  | nil =>
      intro cs h
      cases cs with
      | nil => rfl
      | cons c s => simp at h
  | cons a t ih =>
      intro cs h
      cases cs with
      | nil => simp at h
      | cons c s =>
          simp only [List.flatMap_cons, List.zip_cons_cons]
          rw [List.zip_append (hlen a c), ih s (by simpa using h)]

/-- Cell-wise description of a scatter whose index list enumerates the full
`N x N` grid anchored at `(rb, cb)` in channel `cls`, with value `val k l` at
grid offset `(k, l)` — the shape produced by `draw_gaussian` for an unclipped
kernel. -/
theorem applyScatter_grid (N : ℕ) (rb cb cls : ℤ) (val : ℕ → ℕ → Option ℝ)
    (q : ℤ × ℤ × ℤ) (base : ℤ × ℤ × ℤ → Option ℝ) :
    applyScatter
      ((List.range N).flatMap fun (k : ℕ) => (List.range N).map fun (l : ℕ) =>
        ([rb + (k : ℤ), cb + (l : ℤ), cls], val k l)) base q =
    if rb ≤ q.1 ∧ q.1 < rb + (N : ℤ) ∧ cb ≤ q.2.1 ∧ q.2.1 < cb + (N : ℤ) ∧ q.2.2 = cls then
      val (q.1 - rb).toNat (q.2.1 - cb).toNat
    else base q := by
  by_cases hb : rb ≤ q.1 ∧ q.1 < rb + (N : ℤ) ∧ cb ≤ q.2.1 ∧ q.2.1 < cb + (N : ℤ) ∧ q.2.2 = cls
  · rw [if_pos hb]
    obtain ⟨h1, h2, h3, h4, h5⟩ := hb
    apply applyScatter_of_unique q (val (q.1 - rb).toNat (q.2.1 - cb).toNat)
    · simp only [List.mem_flatMap, List.mem_map, List.mem_range]
      refine ⟨(q.1 - rb).toNat, by omega, (q.2.1 - cb).toNat, by omega, ?_⟩
      have e1 : rb + ((q.1 - rb).toNat : ℤ) = q.1 := by omega
      have e2 : cb + ((q.2.1 - cb).toNat : ℤ) = q.2.1 := by omega
      rw [e1, e2, h5]
    · intro p hp hkey
      simp only [List.mem_flatMap, List.mem_map, List.mem_range] at hp
      obtain ⟨k, hk, l, hl, rfl⟩ := hp
      have hkey2 : rb + (k : ℤ) = q.1 ∧ cb + (l : ℤ) = q.2.1 ∧ cls = q.2.2 := by
        simpa using hkey
      obtain ⟨e1, e2, e3⟩ := hkey2
      have ek : k = (q.1 - rb).toNat := by omega
      have el : l = (q.2.1 - cb).toNat := by omega
      subst ek
      subst el
      rw [e1, e2, e3]
  · rw [if_neg hb]
    apply applyScatter_of_not_mem
    intro p hp hkey
    simp only [List.mem_flatMap, List.mem_map, List.mem_range] at hp
    obtain ⟨k, hk, l, hl, rfl⟩ := hp
    have hkey2 : rb + (k : ℤ) = q.1 ∧ cb + (l : ℤ) = q.2.1 ∧ cls = q.2.2 := by
      simpa using hkey
    apply hb
    obtain ⟨e1, e2, e3⟩ := hkey2
    refine ⟨by omega, by omega, by omega, by omega, by omega⟩

theorem pySliceIdx_eq_nil {n a b : ℤ}
    (h : max 0 (min (if b < 0 then b + n else b) n) ≤
      max 0 (min (if a < 0 then a + n else a) n)) :
    pySliceIdx n a b = [] := by
  rw [pySliceIdx]
  exact rangeList_eq_nil h

theorem pySliceIdx_full (n : ℤ) (hn : 0 ≤ n) : pySliceIdx n 0 n = rangeList 0 n := by
  rw [pySliceIdx]
  rw [if_neg (by omega), if_neg (by omega)]
  congr 1 <;> omega

theorem pySliceIdx_full2 (n a b : ℤ) (ha : a = 0) (hb : b = n) (hn : 0 ≤ n) :
    pySliceIdx n a b = rangeList 0 n := by
  rw [ha, hb]
  exact pySliceIdx_full n hn

theorem rangeList_as_range (lo hi : ℤ) (N : ℕ) (hN : (hi - lo).toNat = N) :
    rangeList lo hi = (List.range N).map fun (k : ℕ) => lo + (k : ℤ) := by
  rw [rangeList, hN]

/-! ### Claim C1: stamping a blob fully inside the heatmap -/

/-- C1: for a blob whose kernel footprint lies fully inside the heatmap
(`r <= x < W - r - 1`, `r <= y < H - r - 1`, `0 <= cls < C`, `r >= 1`) and a
nonzero scaling factor, `draw_gaussian` returns a fresh buffer whose nonzero
cells are exactly the `(2r+1) x (2r+1)` block centred at `(y, x)` in channel
`cls`, each holding the corresponding kernel value times the scaling factor,
and every other cell of the buffer holds exactly zero. -/
theorem draw_gaussian_inside (H W C cls x y r : ℤ) (sf : ℝ)
    (hr : 1 ≤ r) (hc0 : 0 ≤ cls) (hcC : cls < C)
    (hx0 : r ≤ x) (hx1 : x < W - r - 1) (hy0 : r ≤ y) (hy1 : y < H - r - 1)
    (hsf : sf ≠ 0) :
    ∃ hm, draw_gaussian (H, W, C) (cls, x, y, r) sf = some hm ∧
      ∀ a b c : ℤ, 0 ≤ a → a < H → 0 ≤ b → b < W → 0 ≤ c → c < C →
        ((y - r ≤ a ∧ a ≤ y + r ∧ x - r ≤ b ∧ b ≤ x + r ∧ c = cls) →
          hm (a, b, c) = some (gaussianKernelValue r (a - (y - r)) (b - (x - r)) * sf) ∧
          hm (a, b, c) ≠ some 0) ∧
        (¬(y - r ≤ a ∧ a ≤ y + r ∧ x - r ≤ b ∧ b ≤ x + r ∧ c = cls) →
          hm (a, b, c) = some 0) := by
  have hgp : ∀ i j : ℤ, _gaussian_penalty r i j = some (gaussianKernelValue r i j) := by
    intro i j
    have hrr : ((r : ℝ)) ≠ 0 := Int.cast_ne_zero.mpr (by omega)
    rw [_gaussian_penalty,
      if_neg (mul_ne_zero two_ne_zero (pow_ne_zero 2 (div_ne_zero hrr (by norm_num))))]
  have hleft : min x r = r := min_eq_right hx0
  have hright : min (W - x) (r + 1) = r + 1 := min_eq_right (by omega)
  have htop : min y r = r := min_eq_right hy0
  have hbot : min (H - y) (r + 1) = r + 1 := min_eq_right (by omega)
  have hidx : draw_indices cls x y r H W =
      (rangeList (y - r) (y + (r + 1))).flatMap fun a =>
        (rangeList (x - r) (x + (r + 1))).map fun b => [a, b, cls] := by
    simp only [draw_indices]
    rw [hleft, hright, htop, hbot, cartesian_product_three]
  have hval : draw_values x y r H W sf =
      (rangeList 0 (2 * r + 1)).flatMap fun i =>
        (rangeList 0 (2 * r + 1)).map fun j => some (gaussianKernelValue r i j * sf) := by
    simp only [draw_values]
    rw [hleft, hright, htop, hbot]
    rw [pySliceIdx_full2 (2 * r + 1) (r - r) (r + (r + 1)) (by ring) (by ring) (by omega)]
    rw [List.map_flatMap]
    simp only [List.map_map, Function.comp_def, hgp, Option.map_some']
  have hlen_inner_idx : ∀ a : ℤ,
      ((rangeList (x - r) (x + (r + 1))).map fun b => [a, b, cls]).length =
        (2 * r + 1).toNat := by
    intro a
    rw [List.length_map, length_rangeList]
    omega
  have hlen_inner_val : ∀ i : ℤ,
      ((rangeList 0 (2 * r + 1)).map fun j =>
        some (gaussianKernelValue r i j * sf)).length = (2 * r + 1).toNat := by
    intro i
    rw [List.length_map, length_rangeList]
    omega
  have hlen_eq : (draw_indices cls x y r H W).length = (draw_values x y r H W sf).length := by
    rw [hidx, hval]
    rw [length_flatMap_const _ _ ((2 * r + 1).toNat) (fun a _ => hlen_inner_idx a)]
    rw [length_flatMap_const _ _ ((2 * r + 1).toNat) (fun i _ => hlen_inner_val i)]
    rw [length_rangeList, length_rangeList]
    have e : (y + (r + 1) - (y - r)).toNat = (2 * r + 1 - 0).toNat := by omega
    rw [e]
  have hvalid : ∀ l ∈ draw_indices cls x y r H W, validIdx H W C l = true := by
    rw [hidx]
    intro l hl
    simp only [List.mem_flatMap, List.mem_map] at hl
    obtain ⟨a, ha, b, hb, rfl⟩ := hl
    rw [mem_rangeList] at ha hb
    simp only [validIdx, Bool.and_eq_true, decide_eq_true_eq]
    omega
  have hzip : (draw_indices cls x y r H W).zip (draw_values x y r H W sf) =
      (List.range (2 * r + 1).toNat).flatMap fun (k : ℕ) =>
        (List.range (2 * r + 1).toNat).map fun (l : ℕ) =>
          ([(y - r) + (k : ℤ), (x - r) + (l : ℤ), cls],
            some (gaussianKernelValue r (k : ℤ) (l : ℤ) * sf)) := by
    rw [hidx, hval]
    rw [zip_flatMap_uniform _ _
      (fun a i => by rw [hlen_inner_idx a, hlen_inner_val i]) _ _
      (by rw [length_rangeList, length_rangeList]; omega)]
    rw [rangeList_as_range (y - r) (y + (r + 1)) (2 * r + 1).toNat (by omega),
      rangeList_as_range 0 (2 * r + 1) (2 * r + 1).toNat (by omega),
      rangeList_as_range (x - r) (x + (r + 1)) (2 * r + 1).toNat (by omega)]
    simp only [List.flatMap_map, List.map_map]
    simp only [List.zip_map']
    simp only [List.map_map, Function.comp_def, zero_add]
    simp only [List.flatMap_map]
  refine ⟨applyScatter
    ((draw_indices cls x y r H W).zip (draw_values x y r H W sf)) (fun _ => some 0), ?_, ?_⟩
  · show tensor_scatter_nd_update H W C (draw_indices cls x y r H W)
      (draw_values x y r H W sf) = _
    rw [tensor_scatter_nd_update, if_pos ⟨hlen_eq, hvalid⟩]
  · intro a b c _ _ _ _ _ _
    have hcell : applyScatter
        ((draw_indices cls x y r H W).zip (draw_values x y r H W sf))
        (fun _ => some 0) (a, b, c) =
        if (y - r) ≤ a ∧ a < (y - r) + (((2 * r + 1).toNat : ℕ) : ℤ) ∧
            (x - r) ≤ b ∧ b < (x - r) + (((2 * r + 1).toNat : ℕ) : ℤ) ∧ c = cls then
          some (gaussianKernelValue r (((a - (y - r)).toNat : ℕ) : ℤ)
            (((b - (x - r)).toNat : ℕ) : ℤ) * sf)
        else some 0 := by
      rw [hzip]
      exact applyScatter_grid ((2 * r + 1).toNat) (y - r) (x - r) cls
        (fun k l => some (gaussianKernelValue r (k : ℤ) (l : ℤ) * sf)) (a, b, c) _
    constructor
    · intro hblock
      obtain ⟨hb1, hb2, hb3, hb4, hb5⟩ := hblock
      have hin : (y - r) ≤ a ∧ a < (y - r) + (((2 * r + 1).toNat : ℕ) : ℤ) ∧
          (x - r) ≤ b ∧ b < (x - r) + (((2 * r + 1).toNat : ℕ) : ℤ) ∧ c = cls :=
        ⟨hb1, by omega, hb3, by omega, hb5⟩
      rw [hcell, if_pos hin]
      have ea : (((a - (y - r)).toNat : ℕ) : ℤ) = a - (y - r) := by omega
      have eb : (((b - (x - r)).toNat : ℕ) : ℤ) = b - (x - r) := by omega
      rw [ea, eb]
      refine ⟨rfl, ?_⟩
      simp only [ne_eq, Option.some.injEq]
      have hexp : gaussianKernelValue r (a - (y - r)) (b - (x - r)) ≠ 0 := by
        rw [gaussianKernelValue]
        exact Real.exp_ne_zero _
      exact mul_ne_zero hexp hsf
    · intro hnb
      have hni : ¬((y - r) ≤ a ∧ a < (y - r) + (((2 * r + 1).toNat : ℕ) : ℤ) ∧
          (x - r) ≤ b ∧ b < (x - r) + (((2 * r + 1).toNat : ℕ) : ℤ) ∧ c = cls) := by
        intro hin
        apply hnb
        obtain ⟨h1, h2, h3, h4, h5⟩ := hin
        exact ⟨h1, by omega, h3, by omega, h5⟩
      rw [hcell, if_neg hni]

/-- C1 witness: a radius-1 blob at `(x, y) = (3, 3)` in channel 1 of a
`(7, 7, 2)` heatmap with scaling factor 2. -/
theorem draw_gaussian_inside_witness :
    ((1 : ℤ) ≤ 1 ∧ (0 : ℤ) ≤ 1 ∧ (1 : ℤ) < 2 ∧ (1 : ℤ) ≤ 3 ∧ (3 : ℤ) < 7 - 1 - 1 ∧
      (1 : ℤ) ≤ 3 ∧ (3 : ℤ) < 7 - 1 - 1 ∧ (2 : ℝ) ≠ 0) ∧
    ∃ hm, draw_gaussian (7, 7, 2) (1, 3, 3, 1) 2 = some hm ∧
      ∀ a b c : ℤ, 0 ≤ a → a < 7 → 0 ≤ b → b < 7 → 0 ≤ c → c < 2 →
        ((3 - 1 ≤ a ∧ a ≤ 3 + 1 ∧ 3 - 1 ≤ b ∧ b ≤ 3 + 1 ∧ c = 1) →
          hm (a, b, c) = some (gaussianKernelValue 1 (a - (3 - 1)) (b - (3 - 1)) * 2) ∧
          hm (a, b, c) ≠ some 0) ∧
        (¬(3 - 1 ≤ a ∧ a ≤ 3 + 1 ∧ 3 - 1 ≤ b ∧ b ≤ 3 + 1 ∧ c = 1) →
          hm (a, b, c) = some 0) :=
  ⟨⟨by norm_num, by norm_num, by norm_num, by norm_num, by norm_num, by norm_num,
      by norm_num, by norm_num⟩,
    draw_gaussian_inside 7 7 2 1 3 3 1 2 (by norm_num) (by norm_num) (by norm_num)
      (by norm_num) (by norm_num) (by norm_num) (by norm_num) (by norm_num)⟩

/-! ### Claim C4: blobs with centres outside the heatmap -/

/-- C4 (amended): when the centre is far enough outside the heatmap that the
clipped index range and the matching kernel slice are both empty on some axis
(`x <= -(r+1)`, `x >= W + 3r + 1`, `y <= -(r+1)` or `y >= H + 3r + 1`), the
index and value lists are both empty and `draw_gaussian` returns the all-zero
heatmap without raising. (Centres only slightly outside still write a clipped
part of the kernel — see the counterexample — and for `W + r < x <= W + 3r` the
two lists have different lengths and the scatter op raises.) -/
theorem draw_gaussian_far_outside (H W C cls x y r : ℤ) (sf : ℝ)
    (hr : 0 ≤ r) (hH : 0 ≤ H) (hW : 0 ≤ W)
    (hout : x ≤ -(r + 1) ∨ W + 3 * r + 1 ≤ x ∨ y ≤ -(r + 1) ∨ H + 3 * r + 1 ≤ y) :
    draw_indices cls x y r H W = [] ∧ draw_values x y r H W sf = [] ∧
    draw_gaussian (H, W, C) (cls, x, y, r) sf = some (fun _ => some 0) := by
  have hmain : draw_indices cls x y r H W = [] ∧ draw_values x y r H W sf = [] := by
    rcases hout with hx | hx | hy | hy
    · have hleft : min x r = x := min_eq_left (by omega)
      have hcols : rangeList (x - x) (x + min (W - x) (r + 1)) = [] :=
        rangeList_eq_nil (by omega)
      have hcolSel : pySliceIdx (2 * r + 1) (r - x) (r + min (W - x) (r + 1)) = [] :=
        pySliceIdx_eq_nil (by split_ifs <;> omega)
      constructor
      · simp only [draw_indices]
        rw [cartesian_product_three, hleft, hcols]
        simp only [List.map_nil]
        exact flatMap_nil_fun _
      · simp only [draw_values]
        rw [hleft, hcolSel]
        simp only [List.map_nil, flatMap_nil_fun]
    · have hleft : min x r = r := min_eq_right (by omega)
      have hright : min (W - x) (r + 1) = W - x := min_eq_left (by omega)
      have hcols : rangeList (x - r) (x + (W - x)) = [] := rangeList_eq_nil (by omega)
      have hcolSel : pySliceIdx (2 * r + 1) (r - r) (r + (W - x)) = [] :=
        pySliceIdx_eq_nil (by split_ifs <;> omega)
      constructor
      · simp only [draw_indices]
        rw [cartesian_product_three, hleft, hright, hcols]
        simp only [List.map_nil]
        exact flatMap_nil_fun _
      · simp only [draw_values]
        rw [hleft, hright, hcolSel]
        simp only [List.map_nil, flatMap_nil_fun]
    · have htop : min y r = y := min_eq_left (by omega)
      have hrows : rangeList (y - y) (y + min (H - y) (r + 1)) = [] :=
        rangeList_eq_nil (by omega)
      have hrowSel : pySliceIdx (2 * r + 1) (r - y) (r + min (H - y) (r + 1)) = [] :=
        pySliceIdx_eq_nil (by split_ifs <;> omega)
      constructor
      · simp only [draw_indices]
        rw [cartesian_product_three, htop, hrows]
        simp
      · simp only [draw_values]
        rw [htop, hrowSel]
        simp
    · have htop : min y r = r := min_eq_right (by omega)
      have hbot : min (H - y) (r + 1) = H - y := min_eq_left (by omega)
      have hrows : rangeList (y - r) (y + (H - y)) = [] := rangeList_eq_nil (by omega)
      have hrowSel : pySliceIdx (2 * r + 1) (r - r) (r + (H - y)) = [] :=
        pySliceIdx_eq_nil (by split_ifs <;> omega)
      constructor
      · simp only [draw_indices]
        rw [cartesian_product_three, htop, hbot, hrows]
        simp
      · simp only [draw_values]
        rw [htop, hbot, hrowSel]
        simp
  refine ⟨hmain.1, hmain.2, ?_⟩
  show tensor_scatter_nd_update H W C (draw_indices cls x y r H W)
    (draw_values x y r H W sf) = _
  rw [hmain.1, hmain.2]
  rw [tensor_scatter_nd_update]
  rw [if_pos ⟨rfl, by simp⟩]
  rfl

/-- C4 witness: a radius-1 blob centred at `x = -2` outside a `(4, 4, 1)` heatmap. -/
theorem draw_gaussian_far_outside_witness :
    ((0 : ℤ) ≤ 1 ∧ (0 : ℤ) ≤ 4 ∧ (0 : ℤ) ≤ 4 ∧
      ((-2 : ℤ) ≤ -(1 + 1) ∨ (4 : ℤ) + 3 * 1 + 1 ≤ -2 ∨ (1 : ℤ) ≤ -(1 + 1) ∨
        (4 : ℤ) + 3 * 1 + 1 ≤ 1)) ∧
    (draw_indices 0 (-2) 1 1 4 4 = [] ∧ draw_values (-2) 1 1 4 4 1 = [] ∧
      draw_gaussian (4, 4, 1) (0, -2, 1, 1) 1 = some (fun _ => some 0)) :=
  ⟨⟨by norm_num, by norm_num, by norm_num, Or.inl (by norm_num)⟩,
    draw_gaussian_far_outside 4 4 1 0 (-2) 1 1 1 (by norm_num) (by norm_num) (by norm_num)
      (Or.inl (by norm_num))⟩

/-- C4 counterexample: the blob `(class 0, x = -1, y = 1, r = 1)` has its centre
outside a `(3, 3, 1)` heatmap, yet the scatter is not empty: the kernel column at
grid offset 2 is written into heatmap column 0, so cell `(1, 0, 0)` holds
`exp(-9/2) ≠ 0` — the heatmap is not all-zero as the claim states. -/
theorem draw_gaussian_outside_center_writes :
    cellAt (draw_gaussian (3, 3, 1) (0, -1, 1, 1) 1) (1, 0, 0) =
      some (some (Real.exp (-(9 / 2)))) ∧ Real.exp (-(9 / 2) : ℝ) ≠ 0 := by
  constructor
  · have hidx : draw_indices 0 (-1) 1 1 3 3 = [[0, 0, 0], [1, 0, 0], [2, 0, 0]] := by decide
    have hrow : pySliceIdx (2 * 1 + 1) (1 - min (1 : ℤ) 1) (1 + min ((3 : ℤ) - 1) (1 + 1)) =
        [0, 1, 2] := by decide
    have hcol : pySliceIdx (2 * 1 + 1) (1 - min (-1 : ℤ) 1) (1 + min ((3 : ℤ) - -1) (1 + 1)) =
        [2] := by decide
    have hgp1 : ∀ i j : ℤ, _gaussian_penalty 1 i j = some (gaussianKernelValue 1 i j) := by
      intro i j
      rw [_gaussian_penalty, if_neg (by norm_num)]
    have hval : draw_values (-1) 1 1 3 3 1 =
        [some (gaussianKernelValue 1 0 2), some (gaussianKernelValue 1 1 2),
          some (gaussianKernelValue 1 2 2)] := by
      simp only [draw_values]
      rw [hrow, hcol]
      simp [hgp1]
    have hexp : gaussianKernelValue 1 1 2 = Real.exp (-(9 / 2)) := by
      rw [gaussianKernelValue]
      congr 1
      norm_num
    show cellAt (tensor_scatter_nd_update 3 3 1 (draw_indices 0 (-1) 1 1 3 3)
      (draw_values (-1) 1 1 3 3 1)) (1, 0, 0) = _
    rw [hidx, hval, tensor_scatter_nd_update, if_pos ⟨rfl, by decide⟩]
    show some (applyScatter ([[0, 0, 0], [1, 0, 0], [2, 0, 0]].zip
      [some (gaussianKernelValue 1 0 2), some (gaussianKernelValue 1 1 2),
        some (gaussianKernelValue 1 2 2)]) (fun _ => some 0) (1, 0, 0)) =
      some (some (Real.exp (-(9 / 2))))
    rw [show applyScatter ([[0, 0, 0], [1, 0, 0], [2, 0, 0]].zip
      [some (gaussianKernelValue 1 0 2), some (gaussianKernelValue 1 1 2),
        some (gaussianKernelValue 1 2 2)]) (fun _ => some 0) ((1 : ℤ), (0 : ℤ), (0 : ℤ)) =
      some (gaussianKernelValue 1 1 2) from rfl]
    rw [hexp]
  · exact Real.exp_ne_zero _
